import Mathlib

/-!
Verification of the apkit acoustic signal-processing library.

This file shallowly embeds the functions of apkit/basic.py and apkit/cc.py
as Lean definitions over lists of real and complex numbers, and proves (or
refutes) the specified properties about them.

Conventions of the embedding:
  * numpy 1-d arrays of floats become List ℝ, complex arrays become List ℂ;
    multi-channel signals become lists of lists, in the same nesting order.
  * numpy elementwise operations on arrays of equal length become
    List.zipWith / List.map (the claims only concern shape-matched inputs).
  * a Python function that can raise (an IndexError on out-of-range indexing,
    a failed assert, a ValueError from a zero step) returns an Option, with
    none modelling the raised exception.
  * np.fft.fft / np.fft.ifft are embedded as the textbook DFT sums the numpy
    documentation specifies.  numpy additionally rejects size-0 transforms;
    every claim that goes through the FFT assumes a positive length.
  * Python 2 integer division (len(s) / 2) becomes Nat division.
-/

open ComplexConjugate

namespace apkit

noncomputable section

/-- Embedding of np.fft.fft: X k = sum over n of x n * exp (-2 pi i k n / N). -/
def fft (x : List ℂ) : List ℂ :=
  (List.range x.length).map fun (k : ℕ) =>
    ∑ n ∈ Finset.range x.length,
      x.getD n 0 * Complex.exp (((-(2 * Real.pi * k * n / x.length) : ℝ) : ℂ) * Complex.I)

/-- Embedding of np.fft.ifft: x n = (sum over k of X k * exp (2 pi i k n / N)) / N. -/
def ifft (x : List ℂ) : List ℂ :=
  (List.range x.length).map fun (n : ℕ) =>
    (∑ k ∈ Finset.range x.length,
      x.getD k 0 * Complex.exp (((2 * Real.pi * k * n / x.length : ℝ) : ℂ) * Complex.I))
      / (x.length : ℂ)

/-- Embedding of basic.cola_hamming.  np.hamming(w+1) is the periodic Hamming
window 0.54 - 0.46 * cos(2 pi n / w) for n = 0 .. w; the slice [0:w] keeps
n = 0 .. w-1, and every coefficient is then divided by 1.08 and scaled by
hop_size / win_size * 2 (float arithmetic throughout, since the numpy array
is a float array). -/
def cola_hamming (win_size hop_size : ℕ) : List ℝ :=
  (List.range win_size).map fun (n : ℕ) =>
    (0.54 - 0.46 * Real.cos (2 * Real.pi * n / win_size)) / 1.08 * hop_size / win_size * 2

/-- Embedding of basic.stft.  The assert signal.ndim == 2 is structural in the
type.  xrange(0, len(c) - win_size, hop_size) enumerates the starts
j * hop_size for j < ceil((len(c) - win_size) / hop_size), where the
subtraction is truncated at 0 exactly as a negative Python stop yields an
empty range; a zero hop_size raises (none).  Each frame is the elementwise
product of the slice c[t:t+win_size] with the window coefficients, fed to the
complex FFT. -/
def stft (signal : List (List ℝ)) (window : ℕ → ℕ → List ℝ) (win_size hop_size : ℕ) :
    Option (List (List (List ℂ))) :=
  if hop_size = 0 then none
  else
    some (signal.map fun c =>
      (List.range ((c.length - win_size + hop_size - 1) / hop_size)).map fun j =>
        fft (((List.zipWith (fun a b => a * b) ((c.drop (j * hop_size)).take win_size)
          (window win_size hop_size) : List ℝ)).map (fun r => (r : ℂ))))

/-- Embedding of basic.freq_upsample.  upsample == 1 returns the input at
once; the assert (isinstance int and > 1) failing is none; for even length
the Nyquist bin s[l/2] is read (an IndexError on the empty list is none) and
split in half around the inserted zeros; for odd length the zeros are
inserted after the first l/2 + 1 bins (Python 2 integer division); the
concatenation is finally scaled by the factor. -/
def freq_upsample (s : List ℂ) (upsample : ℕ) : Option (List ℂ) :=
  if upsample = 1 then some s
  else if 1 < upsample then
    if s.length % 2 = 0 then
      match s.get? (s.length / 2) with
      | none => none
      | some sh =>
          some ((s.take (s.length / 2) ++ [sh / 2]
              ++ List.replicate (s.length * (upsample - 1) - 1) 0
              ++ [sh / 2] ++ s.drop (s.length / 2 + 1)).map fun z => (upsample : ℂ) * z)
    else
      some ((s.take (s.length / 2 + 1) ++ List.replicate (s.length * (upsample - 1)) 0
          ++ s.drop (s.length / 2 + 1)).map fun z => (upsample : ℂ) * z)
  else none

/-- Embedding of cc._freq_upsample, whose source code is verbatim identical to
basic.freq_upsample. -/
def _freq_upsample (s : List ℂ) (upsample : ℕ) : Option (List ℂ) :=
  if upsample = 1 then some s
  else if 1 < upsample then
    if s.length % 2 = 0 then
      match s.get? (s.length / 2) with
      | none => none
      | some sh =>
          some ((s.take (s.length / 2) ++ [sh / 2]
              ++ List.replicate (s.length * (upsample - 1) - 1) 0
              ++ [sh / 2] ++ s.drop (s.length / 2 + 1)).map fun z => (upsample : ℂ) * z)
    else
      some ((s.take (s.length / 2 + 1) ++ List.replicate (s.length * (upsample - 1)) 0
          ++ s.drop (s.length / 2 + 1)).map fun z => (upsample : ℂ) * z)
  else none

/-- Embedding of cc.gcc_phat: the cross-power spectral density x * conj y is
divided elementwise by its magnitude, upsampled, and the real part of its
inverse FFT is returned. -/
def gcc_phat (x y : List ℂ) (upsample : ℕ) : Option (List ℝ) :=
  (_freq_upsample
      (List.zipWith (fun a b => a * conj b / ((Complex.abs (a * conj b) : ℝ) : ℂ)) x y)
      upsample).map
    fun s => (ifft s).map Complex.re

/-- np.max (np.abs c).  All the values are nonnegative, so folding max with
base 0 agrees with numpy's maximum of a nonempty array; numpy raises on an
empty array, which the caller below guards. -/
def maxAbs (c : List ℂ) : ℝ := (c.map Complex.abs).foldr max 0

/-- Embedding of cc.cross_correlation: the upsampled cross-power spectrum is
inverse-transformed and divided by the maximum bin magnitude (np.max raises
on an empty array, modelled by the none branch). -/
def cross_correlation (x y : List ℂ) (upsample : ℕ) : Option (List ℝ) :=
  (_freq_upsample (List.zipWith (fun a b => a * conj b) x y) upsample).bind fun c =>
    if c.length = 0 then none
    else some ((ifft c).map fun z => (z / ((maxAbs c : ℝ) : ℂ)).re)

/-- Helper for argmax: best index, best value, index of the head of the
remaining list.  A later strictly greater value replaces the current best, so
ties keep the earliest index, as np.argmax does. -/
def argmaxAux : List ℝ → ℕ → ℝ → ℕ → ℕ
  | [], best, _, _ => best
  | v :: rest, best, bestv, i =>
      if bestv < v then argmaxAux rest i v (i + 1) else argmaxAux rest best bestv (i + 1)

/-- np.argmax: index of the first occurrence of the maximum value.  numpy
raises on an empty array; the caller guards, and the [] branch here is never
reached from tdoa. -/
def argmax : List ℝ → ℕ
  | [] => 0
  | v :: rest => argmaxAux rest 0 v 1

/-- Embedding of cc.tdoa: the peak index of cc_func x y, remapped past the
midpoint (Python 2 integer division len(cc) / 2) to a negative lag, returned
as a sample count when fs is none and divided by fs otherwise (the integer
sample count is cast to ℝ so that both branches share a type). -/
def tdoa (x y : List ℂ) (cc_func : List ℂ → List ℂ → Option (List ℝ)) (fs : Option ℝ) :
    Option ℝ :=
  (cc_func x y).bind fun cc =>
    if cc.length = 0 then none
    else
      let p : ℕ := argmax cc
      let p2 : ℤ := if cc.length / 2 < p then (p : ℤ) - (cc.length : ℤ) else (p : ℤ)
      match fs with
      | none => some ((p2 : ℝ))
      | some f => some (1.0 * (p2 : ℝ) / f)

/-- Embedding of cc.cc_across_time: izip truncates to the shorter input, which
is exactly List.zipWith.  The result type of cc_func is kept generic, as the
Python function is duck-typed in it. -/
def cc_across_time {γ : Type} (tfx tfy : List (List ℂ)) (cc_func : List ℂ → List ℂ → γ) :
    List γ :=
  List.zipWith (fun fx fy => cc_func fx fy) tfx tfy

/-- Embedding of cc.pairwise_cc: the dict comprehension over x, y in
range(nch) with x < y, modelled as the association list it enumerates (its
keys are pairwise distinct, so the dict and the association list carry the
same finite map). -/
def pairwise_cc {γ : Type} (tf : List (List (List ℂ))) (cc_func : List ℂ → List ℂ → γ) :
    List ((ℕ × ℕ) × List γ) :=
  (List.range tf.length).flatMap fun x =>
    (List.range tf.length).filterMap fun y =>
      if x < y then some ((x, y), cc_across_time (tf.getD x []) (tf.getD y []) cc_func)
      else none

/-- The overlap-add sum of shifted copies of a window w at sample position n:
the sum over every integer shift j of w[n - j * hop] at the indices that fall
inside the window.  Any j contributing a nonzero term satisfies
|j| <= |n| + len w (for hop >= 1), so the sum over that interval of shifts
captures the full bi-infinite sum. -/
def colaSum (w : List ℝ) (hop : ℕ) (n : ℤ) : ℝ :=
  ∑ j ∈ Finset.Icc (-((n.natAbs : ℤ) + (w.length : ℤ))) ((n.natAbs : ℤ) + (w.length : ℤ)),
    if 0 ≤ n - j * (hop : ℤ) ∧ n - j * (hop : ℤ) < (w.length : ℤ)
    then w.getD (n - j * (hop : ℤ)).toNat 0 else 0

/-- Conjugate symmetry of a spectrum: bin k is the conjugate of bin
(l - k) mod l.  This is the exact condition for the inverse DFT to be
real-valued. -/
def ConjSym (s : List ℂ) : Prop :=
  ∀ k, k < s.length → s.getD k 0 = conj (s.getD ((s.length - k) % s.length) 0)

end

/-! ### Generic list-indexing helpers -/

lemma getD_map_lt {α β : Type} (f : α → β) (l : List α) {i : ℕ} (d : α) (d2 : β)
    (h : i < l.length) : (l.map f).getD i d2 = f (l.getD i d) := by
  simp [List.getD_eq_getElem?_getD, List.getElem?_map, List.getElem?_eq_getElem h,
    List.getD_eq_getElem l d h]

lemma getD_range_map {α : Type} (f : ℕ → α) {W i : ℕ} (d : α) (h : i < W) :
    ((List.range W).map f).getD i d = f i := by
  have h' : i < (List.range W).length := by simpa using h
  rw [getD_map_lt f (List.range W) 0 d h']
  congr 1
  simp [List.getD_eq_getElem?_getD, List.getElem?_range h]

lemma ceil_div_lt_iff {m h j : ℕ} (hh : 0 < h) : j < (m + h - 1) / h ↔ j * h < m := by
  rw [Nat.lt_iff_add_one_le, Nat.le_div_iff_mul_le hh]
  have hs : (j + 1) * h = j * h + h := by ring
  rw [hs]
  generalize j * h = a
  omega

/-! ### C7: upsampling by factor 1 is the identity -/

/-- C7: for every spectrum s, of any length, freq_upsample s 1 (and its
verbatim copy in cc.py) returns s itself unchanged: no padding, no scaling,
and no assertion is checked. -/
theorem freq_upsample_one_identity (s : List ℂ) :
    freq_upsample s 1 = some s ∧ _freq_upsample s 1 = some s :=
  ⟨rfl, rfl⟩

/-! ### C8: cc_across_time truncates to the shorter input -/

/-- C8: for every pair of time-frequency signals and every correlation
function, cc_across_time succeeds and returns exactly min(m, n) rows, row t
being cc_func applied to frame t of each input; the frames of the longer
input beyond the shorter one are silently discarded. -/
theorem cc_across_time_truncates {γ : Type} (tfx tfy : List (List ℂ))
    (cc_func : List ℂ → List ℂ → γ) :
    (cc_across_time tfx tfy cc_func).length = min tfx.length tfy.length ∧
    ∀ t, t < min tfx.length tfy.length →
      (cc_across_time tfx tfy cc_func).get? t =
        some (cc_func (tfx.getD t []) (tfy.getD t [])) := by
  constructor
  · simp [cc_across_time]
  · intro t ht
    have hx : t < tfx.length := lt_of_lt_of_le ht (min_le_left _ _)
    have hy : t < tfy.length := lt_of_lt_of_le ht (min_le_right _ _)
    simp [cc_across_time, List.get?_eq_getElem?, List.getElem?_zipWith,
      List.getElem?_eq_getElem hx, List.getElem?_eq_getElem hy,
      List.getD_eq_getElem tfx [] hx, List.getD_eq_getElem tfy [] hy]

/-- Witness for C8 at concrete inputs of lengths 2 and 1. -/
theorem cc_across_time_truncates_witness :
    (cc_across_time [[(1 : ℂ)], [2]] [[(3 : ℂ)]] (fun fx fy => fx.length + fy.length)).length
        = min 2 1 ∧
    ∀ t, t < min 2 1 →
      (cc_across_time [[(1 : ℂ)], [2]] [[(3 : ℂ)]]
          (fun fx fy => fx.length + fy.length)).get? t =
        some (([[(1 : ℂ)], [2]].getD t []).length + ([[(3 : ℂ)]].getD t []).length) :=
  cc_across_time_truncates [[(1 : ℂ)], [2]] [[(3 : ℂ)]] (fun fx fy => fx.length + fy.length)

/-! ### C9: pairwise_cc enumerates exactly the unordered channel pairs -/

/-- C9: the finite map returned by pairwise_cc holds key (i, j) exactly for
the unordered pairs i < j < nch, with value cc_across_time applied to
channels i and j. -/
theorem pairwise_cc_pairs {γ : Type} (tf : List (List (List ℂ)))
    (cc_func : List ℂ → List ℂ → γ) (i j : ℕ) (v : List γ) :
    ((i, j), v) ∈ pairwise_cc tf cc_func ↔
      i < j ∧ j < tf.length ∧ v = cc_across_time (tf.getD i []) (tf.getD j []) cc_func := by
  simp only [pairwise_cc, List.mem_flatMap, List.mem_filterMap, List.mem_range]
  constructor
  · rintro ⟨x, hx, y, hy, hif⟩
    by_cases hxy : x < y
    · simp only [if_pos hxy, Option.some.injEq, Prod.mk.injEq] at hif
      obtain ⟨⟨hxi, hyj⟩, hv⟩ := hif
      subst hxi; subst hyj
      exact ⟨hxy, hy, hv.symm⟩
    · simp [hxy] at hif
  · rintro ⟨hij, hj, hv⟩
    refine ⟨i, hij.trans hj, j, hj, ?_⟩
    simp [hij, hv]

/-- Witness for C9 on a 3-channel signal: the pair (0, 1) is present with the
value cc_across_time gives on channels 0 and 1. -/
theorem pairwise_cc_pairs_witness :
    ((0, 1), cc_across_time ([[[(1 : ℂ)]], [[2]], [[3]]].getD 0 [])
        ([[[(1 : ℂ)]], [[2]], [[3]]].getD 1 []) (fun fx fy => fx ++ fy)) ∈
      pairwise_cc [[[(1 : ℂ)]], [[2]], [[3]]] (fun fx fy => fx ++ fy) :=
  (pairwise_cc_pairs [[[(1 : ℂ)]], [[2]], [[3]]] (fun fx fy => fx ++ fy) 0 1 _).mpr
    ⟨by norm_num, by norm_num, rfl⟩

/-! ### C1: which frames stft keeps -/

/-- C1 counterexample: a signal of 2 samples with win_size 2 and hop_size 1
admits exactly one start offset t = 0 with t + win_size <= nsamples, so the
claim predicts floor((2-2)/1) + 1 = 1 frame, but the code produces none: the
final frame, although it fits the window exactly, is dropped because the
xrange stop is exclusive. -/
theorem stft_boundary_frame_counterexample :
    ¬ ∃ out, stft [[(1 : ℝ), 0]] (fun _ _ => [(1 : ℝ), 1]) 2 1 = some out ∧
      (out.getD 0 []).length = (2 - 2) / 1 + 1 := by
  rintro ⟨out, hout, hlen⟩
  have hval : stft [[(1 : ℝ), 0]] (fun _ _ => [(1 : ℝ), 1]) 2 1 = some [[]] := by
    simp [stft]
  rw [hval] at hout
  obtain rfl : ([[]] : List (List (List ℂ))) = out := by simpa using hout
  simp at hlen

/-- C1 amended: stft keeps one frame per start offset t = j * hop_size with
t + win_size strictly below nsamples, so the per-channel frame count is
ceil((nsamples - win_size) / hop_size); a trailing partial frame AND a full
frame ending exactly at the signal end are both dropped. -/
theorem stft_frames (signal : List (List ℝ)) (window : ℕ → ℕ → List ℝ) (w h n : ℕ)
    (hh : 0 < h) (hn : ∀ c ∈ signal, c.length = n) :
    ∃ out, stft signal window w h = some out ∧ out.length = signal.length ∧
      (∀ i, i < signal.length → (out.getD i []).length = (n - w + h - 1) / h) ∧
      (∀ j, j < (n - w + h - 1) / h ↔ j * h + w < n) := by
  rw [stft, if_neg hh.ne']
  refine ⟨_, rfl, by simp, ?_, ?_⟩
  · intro i hi
    rw [getD_map_lt _ signal [] [] hi]
    have hc : signal.getD i [] ∈ signal := by
      rw [List.getD_eq_getElem signal [] hi]
      exact List.getElem_mem hi
    rw [hn _ hc]
    simp
  · intro j
    rw [ceil_div_lt_iff hh]
    generalize j * h = a
    omega

/-- Witness for C1 amended: 3 samples, win_size 2, hop_size 1 yield
ceil((3-2)/1) = 1 frame. -/
theorem stft_frames_witness :
    ∃ out, stft [[(1 : ℝ), 0, 0]] (fun _ _ => [(1 : ℝ), 1]) 2 1 = some out ∧
      out.length = [[(1 : ℝ), 0, 0]].length ∧
      (∀ i, i < [[(1 : ℝ), 0, 0]].length →
        (out.getD i []).length = (3 - 2 + 1 - 1) / 1) ∧
      (∀ j, j < (3 - 2 + 1 - 1) / 1 ↔ j * 1 + 2 < 3) :=
  stft_frames [[(1 : ℝ), 0, 0]] (fun _ _ => [(1 : ℝ), 1]) 2 1 3 (by norm_num)
    (by intro c hc; simp only [List.mem_singleton] at hc; subst hc; rfl)

/-! ### Indexing the padded spectra

The even branch of freq_upsample produces (A ++ [c] ++ zeros ++ [c] ++ B)
scaled by the factor, the odd branch (A ++ zeros ++ B) scaled by the factor.
The following lemmas compute entry i of each shape, region by region. -/

lemma five_getD_left (A B : List ℂ) (c : ℂ) (m : ℕ) (μ : ℂ) {i : ℕ} (h : i < A.length) :
    ((A ++ [c] ++ List.replicate m 0 ++ [c] ++ B).map fun z => μ * z).getD i 0
      = μ * A.getD i 0 := by
  simp [List.getD_eq_getElem?_getD, List.getElem?_map, List.getElem?_append, h,
    List.getElem?_eq_getElem h, List.getD_eq_getElem A 0 h]

lemma five_getD_nyq1 (A B : List ℂ) (c : ℂ) (m : ℕ) (μ : ℂ) :
    ((A ++ [c] ++ List.replicate m 0 ++ [c] ++ B).map fun z => μ * z).getD A.length 0
      = μ * c := by
  simp only [List.append_assoc]
  rw [List.getD_eq_getElem?_getD, List.getElem?_map,
    List.getElem?_append_right (le_refl A.length), Nat.sub_self, List.singleton_append,
    List.getElem?_cons_zero]
  simp

lemma five_getD_zero (A B : List ℂ) (c : ℂ) (m : ℕ) (μ : ℂ) {i : ℕ}
    (h1 : A.length < i) (h2 : i < A.length + 1 + m) :
    ((A ++ [c] ++ List.replicate m 0 ++ [c] ++ B).map fun z => μ * z).getD i 0 = 0 := by
  simp only [List.append_assoc]
  rw [List.getD_eq_getElem?_getD, List.getElem?_map,
    List.getElem?_append_right (by omega : A.length ≤ i), List.singleton_append]
  have hk : i - A.length = (i - A.length - 1) + 1 := by omega
  have hc : i - A.length - 1 < (List.replicate m (0 : ℂ)).length := by
    rw [List.length_replicate]; omega
  rw [hk, List.getElem?_cons_succ, List.getElem?_append, if_pos hc,
    List.getElem?_replicate, if_pos (by simpa using hc)]
  simp

lemma five_getD_nyq2 (A B : List ℂ) (c : ℂ) (m : ℕ) (μ : ℂ) :
    ((A ++ [c] ++ List.replicate m 0 ++ [c] ++ B).map fun z => μ * z).getD
      (A.length + 1 + m) 0 = μ * c := by
  simp only [List.append_assoc]
  rw [List.getD_eq_getElem?_getD, List.getElem?_map,
    List.getElem?_append_right (by omega : A.length ≤ A.length + 1 + m),
    List.singleton_append]
  have hk : A.length + 1 + m - A.length = m + 1 := by omega
  rw [hk, List.getElem?_cons_succ,
    List.getElem?_append_right (by rw [List.length_replicate] :
      (List.replicate m (0 : ℂ)).length ≤ m),
    List.length_replicate, Nat.sub_self, List.singleton_append, List.getElem?_cons_zero]
  simp

lemma five_getD_right (A B : List ℂ) (c : ℂ) (m : ℕ) (μ : ℂ) {j : ℕ} (hj : j < B.length) :
    ((A ++ [c] ++ List.replicate m 0 ++ [c] ++ B).map fun z => μ * z).getD
      (A.length + 2 + m + j) 0 = μ * B.getD j 0 := by
  simp only [List.append_assoc]
  rw [List.getD_eq_getElem?_getD, List.getElem?_map,
    List.getElem?_append_right (by omega : A.length ≤ A.length + 2 + m + j),
    List.singleton_append]
  have hk : A.length + 2 + m + j - A.length = (m + (j + 1)) + 1 := by omega
  rw [hk, List.getElem?_cons_succ,
    List.getElem?_append_right (by rw [List.length_replicate]; omega :
      (List.replicate m (0 : ℂ)).length ≤ m + (j + 1)),
    List.length_replicate]
  have hk2 : m + (j + 1) - m = j + 1 := by omega
  rw [hk2, List.singleton_append, List.getElem?_cons_succ,
    List.getElem?_eq_getElem hj, List.getD_eq_getElem B 0 hj]
  simp

lemma five_length (A B : List ℂ) (c : ℂ) (m : ℕ) (μ : ℂ) :
    ((A ++ [c] ++ List.replicate m 0 ++ [c] ++ B).map fun z => μ * z).length
      = A.length + 2 + m + B.length := by
  simp
  omega

lemma five_getD_past (A B : List ℂ) (c : ℂ) (m : ℕ) (μ : ℂ) {i : ℕ}
    (h : A.length + 2 + m + B.length ≤ i) :
    ((A ++ [c] ++ List.replicate m 0 ++ [c] ++ B).map fun z => μ * z).getD i 0 = 0 := by
  rw [List.getD_eq_getElem?_getD, List.getElem?_eq_none]
  · rfl
  · rw [five_length A B c m μ]
    exact h

lemma three_getD_left (A B : List ℂ) (m : ℕ) (μ : ℂ) {i : ℕ} (h : i < A.length) :
    ((A ++ List.replicate m 0 ++ B).map fun z => μ * z).getD i 0 = μ * A.getD i 0 := by
  simp [List.getD_eq_getElem?_getD, List.getElem?_map, List.getElem?_append, h,
    List.getElem?_eq_getElem h, List.getD_eq_getElem A 0 h]

lemma three_getD_zero (A B : List ℂ) (m : ℕ) (μ : ℂ) {i : ℕ}
    (h1 : A.length ≤ i) (h2 : i < A.length + m) :
    ((A ++ List.replicate m 0 ++ B).map fun z => μ * z).getD i 0 = 0 := by
  simp only [List.append_assoc]
  rw [List.getD_eq_getElem?_getD, List.getElem?_map, List.getElem?_append_right h1]
  have hc : i - A.length < (List.replicate m (0 : ℂ)).length := by
    rw [List.length_replicate]; omega
  rw [List.getElem?_append, if_pos hc, List.getElem?_replicate, if_pos (by simpa using hc)]
  simp

lemma three_getD_right (A B : List ℂ) (m : ℕ) (μ : ℂ) {j : ℕ} (hj : j < B.length) :
    ((A ++ List.replicate m 0 ++ B).map fun z => μ * z).getD (A.length + m + j) 0
      = μ * B.getD j 0 := by
  simp only [List.append_assoc]
  rw [List.getD_eq_getElem?_getD, List.getElem?_map,
    List.getElem?_append_right (by omega : A.length ≤ A.length + m + j),
    List.getElem?_append_right (by rw [List.length_replicate]; omega :
      (List.replicate m (0 : ℂ)).length ≤ A.length + m + j - A.length),
    List.length_replicate]
  have hk : A.length + m + j - A.length - m = j := by omega
  rw [hk, List.getElem?_eq_getElem hj, List.getD_eq_getElem B 0 hj]
  simp

lemma three_length (A B : List ℂ) (m : ℕ) (μ : ℂ) :
    ((A ++ List.replicate m 0 ++ B).map fun z => μ * z).length
      = A.length + m + B.length := by
  simp
  omega

lemma three_getD_past (A B : List ℂ) (m : ℕ) (μ : ℂ) {i : ℕ}
    (h : A.length + m + B.length ≤ i) :
    ((A ++ List.replicate m 0 ++ B).map fun z => μ * z).getD i 0 = 0 := by
  rw [List.getD_eq_getElem?_getD, List.getElem?_eq_none]
  · rfl
  · rw [three_length A B m μ]
    exact h

/-- The two verbatim copies of the upsampling routine are the same function. -/
lemma fu_copies_agree : _freq_upsample = freq_upsample := rfl

/-- On an even-length nonempty spectrum with factor at least 2, freq_upsample
takes the even branch and returns the Nyquist-split padded spectrum. -/
lemma fu_even_eq (s : List ℂ) (u : ℕ) (hu : 2 ≤ u) (hl : 0 < s.length)
    (he : s.length % 2 = 0) :
    freq_upsample s u = some ((s.take (s.length / 2) ++ [s.getD (s.length / 2) 0 / 2]
        ++ List.replicate (s.length * (u - 1) - 1) 0
        ++ [s.getD (s.length / 2) 0 / 2] ++ s.drop (s.length / 2 + 1)).map
        fun z => (u : ℂ) * z) := by
  have h2 : s.length / 2 < s.length := by omega
  rw [freq_upsample, if_neg (by omega), if_pos (by omega), if_pos he,
    List.get?_eq_getElem?, List.getElem?_eq_getElem h2, List.getD_eq_getElem s 0 h2]

/-- On an odd-length spectrum with factor at least 2, freq_upsample takes the
odd branch and returns the plainly padded spectrum. -/
lemma fu_odd_eq (s : List ℂ) (u : ℕ) (hu : 2 ≤ u) (ho : s.length % 2 = 1) :
    freq_upsample s u = some ((s.take (s.length / 2 + 1)
        ++ List.replicate (s.length * (u - 1)) 0
        ++ s.drop (s.length / 2 + 1)).map fun z => (u : ℂ) * z) := by
  rw [freq_upsample, if_neg (by omega), if_pos (by omega), if_neg (by omega)]

lemma getD_take_lt (s : List ℂ) {n i : ℕ} (h : i < n) :
    (s.take n).getD i 0 = s.getD i 0 := by
  simp [List.getD_eq_getElem?_getD, List.getElem?_take, h]

lemma getD_drop (s : List ℂ) (n j : ℕ) : (s.drop n).getD j 0 = s.getD (n + j) 0 := by
  simp [List.getD_eq_getElem?_getD, List.getElem?_drop]

/-! ### C3 counterexample: the empty even-length spectrum -/

/-- C3 counterexample: on the empty spectrum (even length 0) with factor 2,
the even branch reads the Nyquist bin s[0], which raises an IndexError, so no
spectrum of length 0 * 2 is returned. -/
theorem freq_upsample_empty_counterexample :
    ¬ ∃ t : List ℂ, freq_upsample ([] : List ℂ) 2 = some t := by
  rintro ⟨t, ht⟩
  simp [freq_upsample] at ht

/-- C3 amended: for every even-length spectrum of length l at least 2 (the
empty spectrum raises instead) and every factor k greater than 1, the result
has length l*k, bins 0..l/2-1 are k times the original bins, the Nyquist bin
is split in half, scaled by k, and placed at indices l/2 and l*k - l/2, and
every bin strictly between those two is zero. -/
theorem freq_upsample_even (s : List ℂ) (k : ℕ) (hk : 2 ≤ k) (hl : 2 ≤ s.length)
    (he : s.length % 2 = 0) :
    ∃ t, freq_upsample s k = some t ∧ t.length = s.length * k ∧
      (∀ i, i < s.length / 2 → t.getD i 0 = k * s.getD i 0) ∧
      t.getD (s.length / 2) 0 = k * s.getD (s.length / 2) 0 / 2 ∧
      t.getD (s.length * k - s.length / 2) 0 = k * s.getD (s.length / 2) 0 / 2 ∧
      (∀ i, s.length / 2 < i → i < s.length * k - s.length / 2 → t.getD i 0 = 0) := by
  rw [fu_even_eq s k hk (by omega) he]
  have hA : (s.take (s.length / 2)).length = s.length / 2 := by
    rw [List.length_take]; omega
  have hB : (s.drop (s.length / 2 + 1)).length = s.length - s.length / 2 - 1 := by
    rw [List.length_drop]; omega
  have hmul : s.length * (k - 1) + s.length = s.length * k := by
    calc s.length * (k - 1) + s.length = s.length * (k - 1 + 1) := by ring
    _ = s.length * k := by rw [Nat.sub_add_cancel (by omega : 1 ≤ k)]
  have hm2 : 2 ≤ s.length * (k - 1) := by
    calc 2 = 2 * 1 := by norm_num
    _ ≤ s.length * (k - 1) := Nat.mul_le_mul (by omega) (by omega)
  have hidx : s.length * k - s.length / 2 = s.length / 2 + 1 + (s.length * (k - 1) - 1) := by
    generalize s.length * (k - 1) = a at hmul hm2 ⊢
    generalize s.length * k = b at hmul ⊢
    omega
  refine ⟨_, rfl, ?_, ?_, ?_, ?_, ?_⟩
  · rw [five_length, hA, hB]
    generalize s.length * (k - 1) = a at hmul hm2 ⊢
    generalize s.length * k = b at hmul ⊢
    omega
  · intro i hi
    have hi' : i < (s.take (s.length / 2)).length := by rw [hA]; exact hi
    rw [five_getD_left _ _ _ _ _ hi', getD_take_lt s hi]
  · have h5 := five_getD_nyq1 (s.take (s.length / 2)) (s.drop (s.length / 2 + 1))
      (s.getD (s.length / 2) 0 / 2) (s.length * (k - 1) - 1) (k : ℂ)
    rw [hA] at h5
    rw [h5]; ring
  · have h5 := five_getD_nyq2 (s.take (s.length / 2)) (s.drop (s.length / 2 + 1))
      (s.getD (s.length / 2) 0 / 2) (s.length * (k - 1) - 1) (k : ℂ)
    rw [hA] at h5
    rw [hidx, h5]; ring
  · intro i h1 h2
    refine five_getD_zero _ _ _ _ _ (by rw [hA]; exact h1) ?_
    rw [hA, ← hidx]
    exact h2

/-- Witness for C3 amended at the spectrum [1, 2] with factor 2. -/
theorem freq_upsample_even_witness :
    ∃ t, freq_upsample [(1 : ℂ), 2] 2 = some t ∧ t.length = [(1 : ℂ), 2].length * 2 ∧
      (∀ i, i < [(1 : ℂ), 2].length / 2 →
        t.getD i 0 = ((2 : ℕ) : ℂ) * [(1 : ℂ), 2].getD i 0) ∧
      t.getD ([(1 : ℂ), 2].length / 2) 0
        = ((2 : ℕ) : ℂ) * [(1 : ℂ), 2].getD ([(1 : ℂ), 2].length / 2) 0 / 2 ∧
      t.getD ([(1 : ℂ), 2].length * 2 - [(1 : ℂ), 2].length / 2) 0
        = ((2 : ℕ) : ℂ) * [(1 : ℂ), 2].getD ([(1 : ℂ), 2].length / 2) 0 / 2 ∧
      (∀ i, [(1 : ℂ), 2].length / 2 < i →
        i < [(1 : ℂ), 2].length * 2 - [(1 : ℂ), 2].length / 2 → t.getD i 0 = 0) :=
  freq_upsample_even [(1 : ℂ), 2] 2 (by norm_num) (by norm_num) (by norm_num)

/-! ### Total index characterization of the padded spectra -/

lemma mul_pred_add (l u : ℕ) (hu : 1 ≤ u) : l * (u - 1) + l = l * u := by
  calc l * (u - 1) + l = l * (u - 1 + 1) := by ring
  _ = l * u := by rw [Nat.sub_add_cancel hu]

/-- Entry i of the even-branch padded spectrum, as a case split on the five
regions (scaled head bins, first Nyquist half, zero block, second Nyquist
half, scaled tail bins) plus the out-of-range default. -/
lemma even_t_getD (s : List ℂ) (u : ℕ) (hu : 2 ≤ u) (hl : 2 ≤ s.length)
    (he : s.length % 2 = 0) (i : ℕ) :
    ((s.take (s.length / 2) ++ [s.getD (s.length / 2) 0 / 2]
        ++ List.replicate (s.length * (u - 1) - 1) 0
        ++ [s.getD (s.length / 2) 0 / 2] ++ s.drop (s.length / 2 + 1)).map
        fun z => (u : ℂ) * z).getD i 0 =
      if i < s.length / 2 then (u : ℂ) * s.getD i 0
      else if i = s.length / 2 then (u : ℂ) * (s.getD (s.length / 2) 0 / 2)
      else if i < s.length * u - s.length / 2 then 0
      else if i = s.length * u - s.length / 2 then (u : ℂ) * (s.getD (s.length / 2) 0 / 2)
      else if i < s.length * u then (u : ℂ) * s.getD (i - s.length * (u - 1)) 0
      else 0 := by
  have hA : (s.take (s.length / 2)).length = s.length / 2 := by rw [List.length_take]; omega
  have hB : (s.drop (s.length / 2 + 1)).length = s.length - s.length / 2 - 1 := by
    rw [List.length_drop]; omega
  have hm := mul_pred_add s.length u (by omega)
  have hm2 : 2 ≤ s.length * (u - 1) := by
    have h21 : 2 * 1 ≤ s.length * (u - 1) := Nat.mul_le_mul hl (by omega)
    omega
  have hidx : s.length * u - s.length / 2 = s.length / 2 + 1 + (s.length * (u - 1) - 1) := by
    generalize s.length * (u - 1) = a at hm hm2 ⊢
    generalize s.length * u = b at hm ⊢
    omega
  split_ifs with h1 h2 h3 h4 h5
  · have h1' : i < (s.take (s.length / 2)).length := by rw [hA]; exact h1
    rw [five_getD_left _ _ _ _ _ h1', getD_take_lt s h1]
  · subst h2
    have h := five_getD_nyq1 (s.take (s.length / 2)) (s.drop (s.length / 2 + 1))
      (s.getD (s.length / 2) 0 / 2) (s.length * (u - 1) - 1) (u : ℂ)
    rw [hA] at h
    exact h
  · refine five_getD_zero _ _ _ _ _ (by rw [hA]; omega) ?_
    rw [hA, ← hidx]
    exact h3
  · subst h4
    have h := five_getD_nyq2 (s.take (s.length / 2)) (s.drop (s.length / 2 + 1))
      (s.getD (s.length / 2) 0 / 2) (s.length * (u - 1) - 1) (u : ℂ)
    rw [hA] at h
    rw [hidx]
    exact h
  · have hj : i - (s.length * u - s.length / 2) - 1 < (s.drop (s.length / 2 + 1)).length := by
      rw [hB]
      generalize s.length * (u - 1) = a at hm hm2 hidx
      generalize s.length * u = b at hm hidx h3 h4 h5 ⊢
      omega
    have hij : i = (s.take (s.length / 2)).length + 2 + (s.length * (u - 1) - 1)
        + (i - (s.length * u - s.length / 2) - 1) := by
      rw [hA]
      generalize s.length * (u - 1) = a at hm hm2 hidx ⊢
      generalize s.length * u = b at hm hidx h3 h4 h5 ⊢
      omega
    rw [hij, five_getD_right _ _ _ _ _ hj, getD_drop]
    have harg : s.length / 2 + 1 + (i - (s.length * u - s.length / 2) - 1)
        = (s.take (s.length / 2)).length + 2 + (s.length * (u - 1) - 1)
          + (i - (s.length * u - s.length / 2) - 1) - s.length * (u - 1) := by
      rw [hA]
      generalize s.length * (u - 1) = a at hm hm2 hidx ⊢
      generalize s.length * u = b at hm hidx h3 h4 h5 ⊢
      omega
    rw [harg]
  · refine five_getD_past _ _ _ _ _ ?_
    rw [hA, hB]
    generalize s.length * (u - 1) = a at hm hm2 hidx ⊢
    generalize s.length * u = b at hm hidx h3 h4 h5 ⊢
    omega

/-- Entry i of the odd-branch padded spectrum: scaled head bins, zero block,
scaled tail bins, out-of-range default. -/
lemma odd_t_getD (s : List ℂ) (u : ℕ) (hu : 2 ≤ u) (ho : s.length % 2 = 1) (i : ℕ) :
    ((s.take (s.length / 2 + 1) ++ List.replicate (s.length * (u - 1)) 0
        ++ s.drop (s.length / 2 + 1)).map fun z => (u : ℂ) * z).getD i 0 =
      if i < s.length / 2 + 1 then (u : ℂ) * s.getD i 0
      else if i < s.length * u - (s.length - s.length / 2 - 1) then 0
      else if i < s.length * u then (u : ℂ) * s.getD (i - s.length * (u - 1)) 0
      else 0 := by
  have hl1 : 1 ≤ s.length := by omega
  have hA : (s.take (s.length / 2 + 1)).length = s.length / 2 + 1 := by
    rw [List.length_take]; omega
  have hB : (s.drop (s.length / 2 + 1)).length = s.length - s.length / 2 - 1 := by
    rw [List.length_drop]; omega
  have hm := mul_pred_add s.length u (by omega)
  have hm1 : 1 ≤ s.length * (u - 1) := by
    have h11 : 1 * 1 ≤ s.length * (u - 1) := Nat.mul_le_mul hl1 (by omega)
    omega
  have hidx : s.length * u - (s.length - s.length / 2 - 1)
      = s.length / 2 + 1 + s.length * (u - 1) := by
    generalize s.length * (u - 1) = a at hm hm1 ⊢
    generalize s.length * u = b at hm ⊢
    omega
  split_ifs with h1 h2 h3
  · have h1' : i < (s.take (s.length / 2 + 1)).length := by rw [hA]; exact h1
    rw [three_getD_left _ _ _ _ h1', getD_take_lt s h1]
  · refine three_getD_zero _ _ _ _ (by rw [hA]; omega) ?_
    rw [hA, ← hidx]
    exact h2
  · have hj : i - (s.length * u - (s.length - s.length / 2 - 1))
        < (s.drop (s.length / 2 + 1)).length := by
      rw [hB]
      generalize s.length * (u - 1) = a at hm hm1 hidx
      generalize s.length * u = b at hm hidx h2 h3 ⊢
      omega
    have hij : i = (s.take (s.length / 2 + 1)).length + s.length * (u - 1)
        + (i - (s.length * u - (s.length - s.length / 2 - 1))) := by
      rw [hA]
      generalize s.length * (u - 1) = a at hm hm1 hidx ⊢
      generalize s.length * u = b at hm hidx h2 h3 ⊢
      omega
    rw [hij, three_getD_right _ _ _ _ hj, getD_drop]
    have harg : s.length / 2 + 1 + (i - (s.length * u - (s.length - s.length / 2 - 1)))
        = (s.take (s.length / 2 + 1)).length + s.length * (u - 1)
          + (i - (s.length * u - (s.length - s.length / 2 - 1))) - s.length * (u - 1) := by
      rw [hA]
      generalize s.length * (u - 1) = a at hm hm1 hidx ⊢
      generalize s.length * u = b at hm hidx h2 h3 ⊢
      omega
    rw [harg]
  · refine three_getD_past _ _ _ _ ?_
    rw [hA, hB]
    generalize s.length * (u - 1) = a at hm hm1 hidx ⊢
    generalize s.length * u = b at hm hidx h2 h3 ⊢
    omega

/-! ### Conjugate symmetry is preserved by the padding (C4) -/

lemma even_t_length (s : List ℂ) (u : ℕ) (hu : 2 ≤ u) (hl : 2 ≤ s.length)
    (he : s.length % 2 = 0) :
    ((s.take (s.length / 2) ++ [s.getD (s.length / 2) 0 / 2]
        ++ List.replicate (s.length * (u - 1) - 1) 0
        ++ [s.getD (s.length / 2) 0 / 2] ++ s.drop (s.length / 2 + 1)).map
        fun z => (u : ℂ) * z).length = s.length * u := by
  have hA : (s.take (s.length / 2)).length = s.length / 2 := by rw [List.length_take]; omega
  have hB : (s.drop (s.length / 2 + 1)).length = s.length - s.length / 2 - 1 := by
    rw [List.length_drop]; omega
  rw [five_length, hA, hB]
  have hm := mul_pred_add s.length u (by omega)
  have hm2 : 2 ≤ s.length * (u - 1) := by
    have h21 : 2 * 1 ≤ s.length * (u - 1) := Nat.mul_le_mul hl (by omega)
    omega
  generalize s.length * (u - 1) = a at hm hm2 ⊢
  generalize s.length * u = b at hm ⊢
  omega

lemma odd_t_length (s : List ℂ) (u : ℕ) (hu : 2 ≤ u) (hl : 1 ≤ s.length)
    (ho : s.length % 2 = 1) :
    ((s.take (s.length / 2 + 1) ++ List.replicate (s.length * (u - 1)) 0
        ++ s.drop (s.length / 2 + 1)).map fun z => (u : ℂ) * z).length
      = s.length * u := by
  have hA : (s.take (s.length / 2 + 1)).length = s.length / 2 + 1 := by
    rw [List.length_take]; omega
  have hB : (s.drop (s.length / 2 + 1)).length = s.length - s.length / 2 - 1 := by
    rw [List.length_drop]; omega
  rw [three_length, hA, hB]
  have hm := mul_pred_add s.length u (by omega)
  generalize s.length * (u - 1) = a at hm ⊢
  generalize s.length * u = b at hm ⊢
  omega

lemma conj_natCast_mul (u : ℕ) (z : ℂ) : conj ((u : ℂ) * z) = (u : ℂ) * conj z := by
  rw [map_mul, map_natCast]

lemma even_conj_sym (s : List ℂ) (u : ℕ) (hu : 2 ≤ u) (hl : 2 ≤ s.length)
    (he : s.length % 2 = 0) (hs : ConjSym s) :
    ConjSym ((s.take (s.length / 2) ++ [s.getD (s.length / 2) 0 / 2]
        ++ List.replicate (s.length * (u - 1) - 1) 0
        ++ [s.getD (s.length / 2) 0 / 2] ++ s.drop (s.length / 2 + 1)).map
        fun z => (u : ℂ) * z) := by
  intro k hk
  rw [even_t_length s u hu hl he] at hk ⊢
  have hm := mul_pred_add s.length u (by omega)
  have hm2 : 2 ≤ s.length * (u - 1) := by
    have h21 : 2 * 1 ≤ s.length * (u - 1) := Nat.mul_le_mul hl (by omega)
    omega
  have h4 : 4 ≤ s.length * u := by
    have h22 : 2 * 2 ≤ s.length * u := Nat.mul_le_mul hl hu
    omega
  have hL : s.length ≤ s.length * u := by
    have h1 : s.length * 1 ≤ s.length * u := Nat.mul_le_mul (le_refl s.length) (by omega)
    omega
  have h2L : 2 * s.length ≤ s.length * u := by
    have h1 : s.length * 2 ≤ s.length * u := Nat.mul_le_mul (le_refl s.length) hu
    omega
  have hsh : s.getD (s.length / 2) 0 = conj (s.getD (s.length / 2) 0) := by
    have h := hs (s.length / 2) (by omega)
    have harg : (s.length - s.length / 2) % s.length = s.length / 2 := by
      have : s.length - s.length / 2 = s.length / 2 := by omega
      rw [this, Nat.mod_eq_of_lt (by omega)]
    rwa [harg] at h
  rw [even_t_getD s u hu hl he k,
    even_t_getD s u hu hl he ((s.length * u - k) % (s.length * u))]
  by_cases hk0 : k = 0
  · subst hk0
    rw [Nat.sub_zero, Nat.mod_self]
    rw [if_pos (by omega : 0 < s.length / 2)]
    have h0 := hs 0 (by omega)
    rw [Nat.sub_zero, Nat.mod_self] at h0
    rw [conj_natCast_mul, ← h0]
  · have hmod : (s.length * u - k) % (s.length * u) = s.length * u - k := by
      apply Nat.mod_eq_of_lt
      generalize s.length * u = b at hk h4 hL h2L ⊢
      omega
    rw [hmod]
    by_cases c1 : k < s.length / 2
    · have d1 : ¬(s.length * u - k < s.length / 2) := by
        generalize s.length * u = b at hk h4 hL h2L ⊢
        omega
      have d2 : ¬(s.length * u - k = s.length / 2) := by
        generalize s.length * u = b at hk h4 hL h2L ⊢
        omega
      have d3 : ¬(s.length * u - k < s.length * u - s.length / 2) := by
        generalize s.length * u = b at hk h4 hL h2L ⊢
        omega
      have d4 : ¬(s.length * u - k = s.length * u - s.length / 2) := by
        generalize s.length * u = b at hk h4 hL h2L ⊢
        omega
      have d5 : s.length * u - k < s.length * u := by
        generalize s.length * u = b at hk h4 hL h2L ⊢
        omega
      rw [if_pos c1, if_neg d1, if_neg d2, if_neg d3, if_neg d4, if_pos d5]
      have harg : s.length * u - k - s.length * (u - 1) = s.length - k := by
        generalize s.length * (u - 1) = a at hm hm2 ⊢
        generalize s.length * u = b at hm hk h4 hL h2L ⊢
        omega
      rw [harg, conj_natCast_mul]
      have h := hs k (by omega)
      rw [Nat.mod_eq_of_lt (by omega : s.length - k < s.length)] at h
      rw [← h]
    · by_cases c2 : k = s.length / 2
      · have d1 : ¬(s.length * u - k < s.length / 2) := by
          generalize s.length * u = b at hk h4 hL h2L ⊢
          omega
        have d2 : ¬(s.length * u - k = s.length / 2) := by
          generalize s.length * u = b at hk h4 hL h2L ⊢
          omega
        have d3 : ¬(s.length * u - k < s.length * u - s.length / 2) := by
          generalize s.length * u = b at hk h4 hL h2L ⊢
          omega
        have d4 : s.length * u - k = s.length * u - s.length / 2 := by rw [c2]
        rw [if_neg c1, if_pos c2, if_neg d1, if_neg d2, if_neg d3, if_pos d4]
        rw [conj_natCast_mul, map_div₀, map_ofNat, ← hsh]
      · by_cases c3 : k < s.length * u - s.length / 2
        · have d1 : ¬(s.length * u - k < s.length / 2) := by
            generalize s.length * u = b at hk h4 hL h2L c3 ⊢
            omega
          have d2 : ¬(s.length * u - k = s.length / 2) := by
            generalize s.length * u = b at hk h4 hL h2L c3 ⊢
            omega
          have d3 : s.length * u - k < s.length * u - s.length / 2 := by
            generalize s.length * u = b at hk h4 hL h2L c3 ⊢
            omega
          rw [if_neg c1, if_neg c2, if_pos c3, if_neg d1, if_neg d2, if_pos d3]
          rw [map_zero]
        · by_cases c4 : k = s.length * u - s.length / 2
          · have d1 : ¬(s.length * u - k < s.length / 2) := by
              generalize s.length * u = b at hk h4 hL h2L c4 ⊢
              omega
            have d2 : s.length * u - k = s.length / 2 := by
              generalize s.length * u = b at hk h4 hL h2L c4 ⊢
              omega
            rw [if_neg c1, if_neg c2, if_neg c3, if_pos c4, if_neg d1, if_pos d2]
            rw [conj_natCast_mul, map_div₀, map_ofNat, ← hsh]
          · have d1 : s.length * u - k < s.length / 2 := by
              generalize s.length * u = b at hk h4 hL h2L c3 c4 ⊢
              omega
            rw [if_neg c1, if_neg c2, if_neg c3, if_neg c4, if_pos hk, if_pos d1]
            have harg : k - s.length * (u - 1) = s.length - (s.length * u - k) := by
              generalize s.length * (u - 1) = a at hm hm2 ⊢
              generalize s.length * u = b at hm hk h4 hL h2L c3 c4 ⊢
              omega
            rw [harg, conj_natCast_mul]
            have hmlt : s.length - (s.length * u - k) < s.length := by
              generalize s.length * u = b at hk h4 hL h2L c3 c4 ⊢
              omega
            have h := hs (s.length - (s.length * u - k)) hmlt
            have harg2 : (s.length - (s.length - (s.length * u - k))) % s.length
                = s.length * u - k := by
              have hle : s.length * u - k ≤ s.length := by
                generalize s.length * u = b at hk h4 hL h2L c3 c4 ⊢
                omega
              have hge : 1 ≤ s.length * u - k := by
                generalize s.length * u = b at hk h4 hL h2L ⊢
                omega
              have hx : s.length - (s.length - (s.length * u - k)) = s.length * u - k := by
                omega
              rw [hx, Nat.mod_eq_of_lt (by omega)]
            rw [harg2] at h
            rw [h]

lemma odd_conj_sym (s : List ℂ) (u : ℕ) (hu : 2 ≤ u) (hl : 1 ≤ s.length)
    (ho : s.length % 2 = 1) (hs : ConjSym s) :
    ConjSym ((s.take (s.length / 2 + 1) ++ List.replicate (s.length * (u - 1)) 0
        ++ s.drop (s.length / 2 + 1)).map fun z => (u : ℂ) * z) := by
  intro k hk
  rw [odd_t_length s u hu hl ho] at hk ⊢
  have hm := mul_pred_add s.length u (by omega)
  have hm1 : 1 ≤ s.length * (u - 1) := by
    have h11 : 1 * 1 ≤ s.length * (u - 1) := Nat.mul_le_mul hl (by omega)
    omega
  have hL : s.length ≤ s.length * u := by
    have h1 : s.length * 1 ≤ s.length * u := Nat.mul_le_mul (le_refl s.length) (by omega)
    omega
  have h2L : 2 * s.length ≤ s.length * u := by
    have h1 : s.length * 2 ≤ s.length * u := Nat.mul_le_mul (le_refl s.length) hu
    omega
  rw [odd_t_getD s u hu ho k, odd_t_getD s u hu ho ((s.length * u - k) % (s.length * u))]
  by_cases hk0 : k = 0
  · subst hk0
    rw [Nat.sub_zero, Nat.mod_self]
    rw [if_pos (by omega : 0 < s.length / 2 + 1)]
    have h0 := hs 0 (by omega)
    rw [Nat.sub_zero, Nat.mod_self] at h0
    rw [conj_natCast_mul, ← h0]
  · have hmod : (s.length * u - k) % (s.length * u) = s.length * u - k := by
      apply Nat.mod_eq_of_lt
      generalize s.length * u = b at hk hL h2L ⊢
      omega
    rw [hmod]
    by_cases c1 : k < s.length / 2 + 1
    · have d1 : ¬(s.length * u - k < s.length / 2 + 1) := by
        generalize s.length * u = b at hk hL h2L ⊢
        omega
      have d2 : ¬(s.length * u - k < s.length * u - (s.length - s.length / 2 - 1)) := by
        generalize s.length * u = b at hk hL h2L ⊢
        omega
      have d3 : s.length * u - k < s.length * u := by
        generalize s.length * u = b at hk hL h2L ⊢
        omega
      rw [if_pos c1, if_neg d1, if_neg d2, if_pos d3]
      have harg : s.length * u - k - s.length * (u - 1) = s.length - k := by
        generalize s.length * (u - 1) = a at hm hm1 ⊢
        generalize s.length * u = b at hm hk hL h2L ⊢
        omega
      rw [harg, conj_natCast_mul]
      have h := hs k (by omega)
      rw [Nat.mod_eq_of_lt (by omega : s.length - k < s.length)] at h
      rw [← h]
    · by_cases c2 : k < s.length * u - (s.length - s.length / 2 - 1)
      · have d1 : ¬(s.length * u - k < s.length / 2 + 1) := by
          generalize s.length * u = b at hk hL h2L c2 ⊢
          omega
        have d2 : s.length * u - k < s.length * u - (s.length - s.length / 2 - 1) := by
          generalize s.length * u = b at hk hL h2L c2 ⊢
          omega
        rw [if_neg c1, if_pos c2, if_neg d1, if_pos d2, map_zero]
      · have d1 : s.length * u - k < s.length / 2 + 1 := by
          generalize s.length * u = b at hk hL h2L c2 ⊢
          omega
        rw [if_neg c1, if_neg c2, if_pos hk, if_pos d1]
        have harg : k - s.length * (u - 1) = s.length - (s.length * u - k) := by
          generalize s.length * (u - 1) = a at hm hm1 ⊢
          generalize s.length * u = b at hm hk hL h2L c2 ⊢
          omega
        rw [harg, conj_natCast_mul]
        have hmlt : s.length - (s.length * u - k) < s.length := by
          generalize s.length * u = b at hk hL h2L c2 ⊢
          omega
        have h := hs (s.length - (s.length * u - k)) hmlt
        have harg2 : (s.length - (s.length - (s.length * u - k))) % s.length
            = s.length * u - k := by
          have hble : s.length * u - k ≤ s.length / 2 := by
            generalize s.length * u = b at hk hL h2L c2 ⊢
            omega
          have hx : s.length - (s.length - (s.length * u - k)) = s.length * u - k := by
            generalize s.length * u = b at hk hL h2L hble ⊢
            omega
          rw [hx, Nat.mod_eq_of_lt (by omega)]
        rw [harg2] at h
        rw [h]

/-! ### A conjugate-symmetric spectrum has a real inverse DFT -/

lemma sigma_invol {N k : ℕ} (hk : k < N) : (N - (N - k) % N) % N = k := by
  rcases Nat.eq_zero_or_pos k with rfl | hk1
  · rw [Nat.sub_zero, Nat.mod_self, Nat.sub_zero, Nat.mod_self]
  · have h1 : (N - k) % N = N - k := Nat.mod_eq_of_lt (by omega)
    rw [h1]
    have h2 : N - (N - k) = k := by omega
    rw [h2, Nat.mod_eq_of_lt hk]

lemma conj_exp_ofReal_mul_I (r : ℝ) :
    conj (Complex.exp ((r : ℂ) * Complex.I)) = Complex.exp (((-r : ℝ) : ℂ) * Complex.I) := by
  rw [← Complex.exp_conj, map_mul, Complex.conj_ofReal, Complex.conj_I]
  congr 1
  push_cast
  ring

lemma conj_sym_ifft_real (t : List ℂ) (ht : ConjSym t) : ∀ z ∈ ifft t, z.im = 0 := by
  intro z hz
  simp only [ifft, List.mem_map, List.mem_range] at hz
  obtain ⟨n, hn, rfl⟩ := hz
  have hN : 0 < t.length := by omega
  rw [← Complex.conj_eq_iff_im, map_div₀, map_natCast]
  congr 1
  rw [map_sum]
  have step1 : ∀ k ∈ Finset.range t.length,
      conj (t.getD k 0
          * Complex.exp (((2 * Real.pi * k * n / t.length : ℝ) : ℂ) * Complex.I))
        = t.getD ((t.length - k) % t.length) 0
            * Complex.exp (((-(2 * Real.pi * k * n / t.length) : ℝ) : ℂ) * Complex.I) := by
    intro k hk
    rw [Finset.mem_range] at hk
    rw [map_mul, conj_exp_ofReal_mul_I]
    congr 1
    rw [ht k hk, Complex.conj_conj]
  rw [Finset.sum_congr rfl step1]
  have step2 : ∑ k ∈ Finset.range t.length, t.getD ((t.length - k) % t.length) 0
        * Complex.exp (((-(2 * Real.pi * k * n / t.length) : ℝ) : ℂ) * Complex.I)
      = ∑ k ∈ Finset.range t.length, t.getD k 0
        * Complex.exp (((-(2 * Real.pi * (((t.length - k) % t.length : ℕ) : ℝ) * n
              / t.length) : ℝ) : ℂ) * Complex.I) := by
    refine Finset.sum_nbij' (fun k => (t.length - k) % t.length)
      (fun k => (t.length - k) % t.length) ?_ ?_ ?_ ?_ ?_
    · intro a ha
      simp only [Finset.mem_range]
      exact Nat.mod_lt _ hN
    · intro a ha
      simp only [Finset.mem_range]
      exact Nat.mod_lt _ hN
    · intro a ha
      rw [Finset.mem_range] at ha
      exact sigma_invol ha
    · intro a ha
      rw [Finset.mem_range] at ha
      exact sigma_invol ha
    · intro a ha
      rw [Finset.mem_range] at ha
      simp only [sigma_invol ha]
  rw [step2]
  refine Finset.sum_congr rfl ?_
  intro k hk
  rw [Finset.mem_range] at hk
  congr 1
  rcases Nat.eq_zero_or_pos k with rfl | hk1
  · rw [Nat.sub_zero, Nat.mod_self]
    norm_num
  · rw [Nat.mod_eq_of_lt (by omega : t.length - k < t.length)]
    have hN0 : (t.length : ℂ) ≠ 0 := Nat.cast_ne_zero.mpr (by omega)
    have key : ((-(2 * Real.pi * ((t.length - k : ℕ) : ℝ) * n / t.length) : ℝ) : ℂ)
          * Complex.I
        = ((2 * Real.pi * k * n / t.length : ℝ) : ℂ) * Complex.I
          + ((-(n : ℤ) : ℤ) : ℂ) * (2 * (Real.pi : ℂ) * Complex.I) := by
      push_cast [Nat.cast_sub (le_of_lt hk)]
      field_simp
      ring
    rw [key, Complex.exp_add, Complex.exp_int_mul_two_pi_mul_I, mul_one]

/-- C4: freq_upsample maps a conjugate-symmetric spectrum of length at least
2 to a conjugate-symmetric spectrum of length l * upsample, and consequently
the inverse FFT of the result is real-valued (every entry has imaginary part
zero). -/
theorem freq_upsample_conj_sym (s : List ℂ) (u : ℕ) (hu : 2 ≤ u) (hl : 2 ≤ s.length)
    (hs : ConjSym s) :
    ∃ t, freq_upsample s u = some t ∧ t.length = s.length * u ∧ ConjSym t ∧
      ∀ z ∈ ifft t, z.im = 0 := by
  by_cases hp : s.length % 2 = 0
  · rw [fu_even_eq s u hu (by omega) hp]
    exact ⟨_, rfl, even_t_length s u hu hl hp, even_conj_sym s u hu hl hp hs,
      conj_sym_ifft_real _ (even_conj_sym s u hu hl hp hs)⟩
  · have ho : s.length % 2 = 1 := by omega
    rw [fu_odd_eq s u hu ho]
    exact ⟨_, rfl, odd_t_length s u hu (by omega) ho,
      odd_conj_sym s u hu (by omega) ho hs,
      conj_sym_ifft_real _ (odd_conj_sym s u hu (by omega) ho hs)⟩

/-- Witness for C4 at the conjugate-symmetric spectrum [1, 0] with factor 2. -/
theorem freq_upsample_conj_sym_witness :
    ∃ t, freq_upsample [(1 : ℂ), 0] 2 = some t ∧ t.length = [(1 : ℂ), 0].length * 2 ∧
      ConjSym t ∧ ∀ z ∈ ifft t, z.im = 0 :=
  freq_upsample_conj_sym [(1 : ℂ), 0] 2 (by norm_num) (by norm_num)
    (by
      intro k hk
      have h2 : k < 2 := by simpa using hk
      interval_cases k
      · simp [ConjSym]
      · simp [ConjSym])

/-! ### C5: the self-correlation of GCC-PHAT is the unit impulse -/

lemma getD_replicate (N : ℕ) (a : ℂ) {i : ℕ} (h : i < N) :
    (List.replicate N a).getD i 0 = a := by
  simp [List.getD_eq_getElem?_getD, List.getElem?_replicate, h]

/-- The N complex N-th roots of unity sum to zero against a nonzero frequency:
the geometric sum of exp(2 pi i n / N) over k < N vanishes for 1 <= n < N. -/
lemma sum_exp_range_eq_zero (N n : ℕ) (h1 : 1 ≤ n) (hn : n < N) :
    ∑ k ∈ Finset.range N,
      Complex.exp (((2 * Real.pi * k * n / N : ℝ) : ℂ) * Complex.I) = 0 := by
  have hN0 : (N : ℝ) ≠ 0 := Nat.cast_ne_zero.mpr (by omega)
  set z := Complex.exp (((2 * Real.pi * n / N : ℝ) : ℂ) * Complex.I) with hz
  have hterm : ∀ k ∈ Finset.range N,
      Complex.exp (((2 * Real.pi * k * n / N : ℝ) : ℂ) * Complex.I) = z ^ k := by
    intro k hk
    rw [hz, ← Complex.exp_nat_mul]
    congr 1
    push_cast
    ring
  rw [Finset.sum_congr rfl hterm]
  have hNc : (N : ℂ) ≠ 0 := Nat.cast_ne_zero.mpr (by omega)
  have hzN : z ^ N = 1 := by
    rw [hz, ← Complex.exp_nat_mul]
    have harg : (N : ℂ) * (((2 * Real.pi * n / N : ℝ) : ℂ) * Complex.I)
        = ((n : ℤ) : ℂ) * (2 * (Real.pi : ℝ) * Complex.I) := by
      push_cast
      field_simp
      ring
    rw [harg]
    exact Complex.exp_int_mul_two_pi_mul_I n
  have hz1 : z ≠ 1 := by
    rw [hz]
    intro hcon
    rw [Complex.exp_eq_one_iff] at hcon
    obtain ⟨m, hm⟩ := hcon
    have him : (2 * Real.pi * n / N : ℝ) = (m : ℝ) * (2 * Real.pi) := by
      have h := congrArg Complex.im hm
      simpa using h
    have hpi := Real.pi_pos
    have hn1 : (1 : ℝ) ≤ (n : ℝ) := by exact_mod_cast h1
    have hnN : (n : ℝ) < (N : ℝ) := by exact_mod_cast hn
    have hNpos : (0 : ℝ) < (N : ℝ) := by positivity
    have hne : (2 * Real.pi) ≠ 0 := by positivity
    have hmn : (n : ℝ) = (m : ℝ) * N := by
      have h3 : 2 * Real.pi * (n : ℝ) = 2 * Real.pi * ((m : ℝ) * N) := by
        field_simp at him
        linear_combination him
      exact mul_left_cancel₀ hne h3
    rcases le_or_lt m 0 with hm0 | hm1
    · have hm0' : (m : ℝ) ≤ 0 := by exact_mod_cast hm0
      nlinarith
    · have hm1' : (1 : ℝ) ≤ (m : ℝ) := by exact_mod_cast hm1
      nlinarith
  rw [geom_sum_eq hz1, hzN]
  simp

/-- The inverse DFT of the all-ones spectrum of length N >= 1 is the unit
impulse: 1 at index 0 and 0 at the other N - 1 indices. -/
lemma ifft_replicate_one (N : ℕ) (hN : 1 ≤ N) :
    ifft (List.replicate N 1) = (1 : ℂ) :: List.replicate (N - 1) 0 := by
  obtain ⟨M, rfl⟩ : ∃ M, N = M + 1 := ⟨N - 1, by omega⟩
  rw [ifft, List.length_replicate, List.range_succ_eq_map, List.map_cons, List.map_map]
  have hM1 : ((M + 1 : ℕ) : ℂ) ≠ 0 := Nat.cast_ne_zero.mpr (Nat.succ_ne_zero M)
  congr 1
  · have hterm : ∀ k ∈ Finset.range (M + 1),
        (List.replicate (M + 1) (1 : ℂ)).getD k 0
          * Complex.exp (((2 * Real.pi * k * ((0 : ℕ) : ℝ) / ((M + 1 : ℕ) : ℝ) : ℝ) : ℂ)
            * Complex.I) = 1 := by
      intro k hk
      rw [Finset.mem_range] at hk
      rw [getD_replicate _ _ hk]
      norm_num
    rw [Finset.sum_congr rfl hterm, Finset.sum_const, Finset.card_range, nsmul_eq_mul,
      mul_one]
    exact div_self hM1
  · rw [List.eq_replicate_iff]
    refine ⟨by simp, ?_⟩
    intro b hb
    rw [List.mem_map] at hb
    obtain ⟨j, hj, rfl⟩ := hb
    rw [List.mem_range] at hj
    have hterm : ∀ k ∈ Finset.range (M + 1),
        (List.replicate (M + 1) (1 : ℂ)).getD k 0
          * Complex.exp (((2 * Real.pi * k * ((Nat.succ j : ℕ) : ℝ) / ((M + 1 : ℕ) : ℝ)
              : ℝ) : ℂ) * Complex.I)
          = Complex.exp (((2 * Real.pi * k * ((Nat.succ j : ℕ) : ℝ) / ((M + 1 : ℕ) : ℝ)
              : ℝ) : ℂ) * Complex.I) := by
      intro k hk
      rw [Finset.mem_range] at hk
      rw [getD_replicate _ _ hk, one_mul]
    simp only [Function.comp_apply]
    rw [Finset.sum_congr rfl hterm,
      sum_exp_range_eq_zero (M + 1) (Nat.succ j) (by omega) (by omega), zero_div]

/-- The phase transform of the self cross-power spectrum of an everywhere
nonzero spectrum is the all-ones array. -/
lemma phat_self (x : List ℂ) (hx : ∀ z ∈ x, z ≠ 0) :
    List.zipWith (fun a b => a * conj b / ((Complex.abs (a * conj b) : ℝ) : ℂ)) x x
      = List.replicate x.length 1 := by
  rw [List.zipWith_same, List.eq_replicate_iff]
  constructor
  · simp
  · intro b hb
    rw [List.mem_map] at hb
    obtain ⟨a, ha, rfl⟩ := hb
    have ha0 := hx a ha
    rw [Complex.mul_conj, Complex.abs_ofReal, abs_of_nonneg (Complex.normSq_nonneg a)]
    exact div_self (Complex.ofReal_ne_zero.mpr (ne_of_gt (Complex.normSq_pos.mpr ha0)))

lemma argmaxAux_zeros (m : ℕ) : ∀ i, argmaxAux (List.replicate m (0 : ℝ)) 0 1 i = 0 := by
  induction m with
  | zero => intro i; rfl
  | succ m ih =>
      intro i
      rw [List.replicate_succ]
      show (if (1 : ℝ) < 0 then argmaxAux (List.replicate m 0) i 0 (i + 1)
        else argmaxAux (List.replicate m 0) 0 1 (i + 1)) = 0
      rw [if_neg (by norm_num : ¬ (1 : ℝ) < 0)]
      exact ih (i + 1)

/-- C5: on an everywhere-nonzero spectrum of length N >= 1, the GCC-PHAT
self-correlation is exactly the unit impulse (1 at lag 0 and 0 at every other
lag), and in particular its argmax is lag 0. -/
theorem gcc_phat_self_impulse (x : List ℂ) (hN : 1 ≤ x.length) (hx : ∀ z ∈ x, z ≠ 0) :
    gcc_phat x x 1 = some ((1 : ℝ) :: List.replicate (x.length - 1) 0) ∧
    argmax ((1 : ℝ) :: List.replicate (x.length - 1) 0) = 0 := by
  constructor
  · rw [gcc_phat, phat_self x hx, fu_copies_agree]
    rw [show freq_upsample (List.replicate x.length 1) 1
      = some (List.replicate x.length 1) from rfl]
    rw [Option.map_some', ifft_replicate_one x.length hN, List.map_cons]
    simp [List.map_replicate]
  · show argmaxAux (List.replicate (x.length - 1) (0 : ℝ)) 0 1 1 = 0
    exact argmaxAux_zeros (x.length - 1) 1

/-- Witness for C5 at the one-bin spectrum [1]. -/
theorem gcc_phat_self_impulse_witness :
    gcc_phat [(1 : ℂ)] [(1 : ℂ)] 1
        = some ((1 : ℝ) :: List.replicate ([(1 : ℂ)].length - 1) 0) ∧
      argmax ((1 : ℝ) :: List.replicate ([(1 : ℂ)].length - 1) 0) = 0 :=
  gcc_phat_self_impulse [(1 : ℂ)] (by norm_num)
    (by
      intro z hz
      rw [List.mem_singleton] at hz
      subst hz
      norm_num)

/-! ### C6: tdoa maps the peak past the midpoint to a negative lag -/

lemma argmaxAux_lt (l : List ℝ) :
    ∀ best bestv i, best < i → argmaxAux l best bestv i < i + l.length := by
  induction l with
  | nil => intro best bestv i hb; simpa [argmaxAux] using hb
  | cons v rest ih =>
      intro best bestv i hb
      show (if bestv < v then argmaxAux rest i v (i + 1)
        else argmaxAux rest best bestv (i + 1)) < i + (rest.length + 1)
      split_ifs
      · have h := ih i v (i + 1) (by omega)
        omega
      · have h := ih best bestv (i + 1) (by omega)
        omega

lemma argmax_lt_length (l : List ℝ) (h : l ≠ []) : argmax l < l.length := by
  cases l with
  | nil => exact absurd rfl h
  | cons v rest =>
      show argmaxAux rest 0 v 1 < rest.length + 1
      have := argmaxAux_lt rest 0 v 1 (by omega)
      omega

lemma tdoa_eval (x y : List ℂ) (cc_func : List ℂ → List ℂ → Option (List ℝ)) (f : ℝ)
    (cc : List ℝ) (h : cc_func x y = some cc) (hne : ¬ cc.length = 0) :
    tdoa x y cc_func (some f)
      = some (1.0 * (((if cc.length / 2 < argmax cc
          then (argmax cc : ℤ) - (cc.length : ℤ)
          else (argmax cc : ℤ)) : ℤ) : ℝ) / f) := by
  rw [tdoa, h, Option.some_bind, if_neg hne]

/-- C6: on any pair of spectra whose GCC-PHAT correlation has length N >= 1,
tdoa with sample rate 16000 returns a value strictly above -N/(2*16000) and
at most N/(2*16000): the peak index past the midpoint is remapped to a
negative lag and divided by the sample rate. -/
theorem tdoa_bounds (x y : List ℂ) (cc : List ℝ) (N : ℕ)
    (hcc : gcc_phat x y 1 = some cc) (hN : cc.length = N) (hN1 : 1 ≤ N) :
    ∃ r, tdoa x y (fun a b => gcc_phat a b 1) (some 16000) = some r ∧
      -(N : ℝ) / (2 * 16000) < r ∧ r ≤ (N : ℝ) / (2 * 16000) := by
  subst hN
  refine ⟨_, tdoa_eval x y (fun a b => gcc_phat a b 1) 16000 cc hcc (by omega), ?_, ?_⟩
  all_goals
    have hplt : argmax cc < cc.length :=
      argmax_lt_length cc (List.ne_nil_of_length_pos (by omega))
  · by_cases hc : cc.length / 2 < argmax cc
    · rw [if_pos hc]
      push_cast
      have h2p : cc.length + 1 ≤ 2 * argmax cc := by omega
      have h2p' : (cc.length : ℝ) < 2 * argmax cc := by exact_mod_cast by omega
      rw [div_lt_div_iff (by norm_num) (by norm_num)]
      linarith
    · rw [if_neg hc]
      push_cast
      have hL1 : (1 : ℝ) ≤ (cc.length : ℝ) := by exact_mod_cast hN1
      have hP0 : (0 : ℝ) ≤ (argmax cc : ℝ) := Nat.cast_nonneg _
      rw [div_lt_div_iff (by norm_num) (by norm_num)]
      linarith
  · by_cases hc : cc.length / 2 < argmax cc
    · rw [if_pos hc]
      push_cast
      have hPL : (argmax cc : ℝ) < cc.length := by exact_mod_cast hplt
      have hL0 : (0 : ℝ) ≤ (cc.length : ℝ) := Nat.cast_nonneg _
      rw [div_le_div_iff (by norm_num) (by norm_num)]
      linarith
    · rw [if_neg hc]
      push_cast
      have h2p : 2 * argmax cc ≤ cc.length := by omega
      have h2p' : (2 * argmax cc : ℝ) ≤ cc.length := by exact_mod_cast h2p
      rw [div_le_div_iff (by norm_num) (by norm_num)]
      linarith

/-- Witness for C6 at the one-bin spectra x = y = [1], whose GCC-PHAT
correlation is [1]. -/
theorem tdoa_bounds_witness :
    ∃ r, tdoa [(1 : ℂ)] [(1 : ℂ)] (fun a b => gcc_phat a b 1) (some 16000) = some r ∧
      -((1 : ℕ) : ℝ) / (2 * 16000) < r ∧ r ≤ ((1 : ℕ) : ℝ) / (2 * 16000) :=
  tdoa_bounds [(1 : ℂ)] [(1 : ℂ)] [(1 : ℝ)] 1
    (by
      rw [gcc_phat]
      norm_num [_freq_upsample, ifft, Complex.ext_iff]
      simp [List.range_succ])
    rfl (le_refl 1)

/-! ### C10: cross_correlation output lies in [-1, 1] -/

lemma maxAbs_nonneg (c : List ℂ) : 0 ≤ maxAbs c := by
  induction c with
  | nil => exact le_refl 0
  | cons a rest ih =>
      show (0 : ℝ) ≤ max (Complex.abs a) ((rest.map Complex.abs).foldr max 0)
      exact le_trans ih (le_max_right _ _)

lemma le_maxAbs (c : List ℂ) {z : ℂ} (hz : z ∈ c) : Complex.abs z ≤ maxAbs c := by
  induction c with
  | nil => exact absurd hz (List.not_mem_nil z)
  | cons a rest ih =>
      rcases List.mem_cons.mp hz with rfl | hz2
      · exact le_max_left _ _
      · exact le_trans (ih hz2) (le_max_right _ _)

lemma exists_nonzero_of_getD {t : List ℂ} {i : ℕ} (hi : i < t.length)
    (h : t.getD i 0 ≠ 0) : ∃ w ∈ t, w ≠ 0 :=
  ⟨t.getD i 0, by rw [List.getD_eq_getElem t 0 hi]; exact List.getElem_mem hi, h⟩

/-- Every entry of the inverse DFT is bounded in magnitude by the maximum bin
magnitude of the spectrum. -/
lemma abs_ifft_le (c : List ℂ) : ∀ z ∈ ifft c, Complex.abs z ≤ maxAbs c := by
  intro z hz
  simp only [ifft, List.mem_map, List.mem_range] at hz
  obtain ⟨n, hn, rfl⟩ := hz
  have hN : (0 : ℝ) < (c.length : ℝ) := by
    have : 0 < c.length := by omega
    exact_mod_cast this
  rw [map_div₀, Complex.abs_natCast, div_le_iff hN]
  calc Complex.abs (∑ k ∈ Finset.range c.length, c.getD k 0
        * Complex.exp (((2 * Real.pi * k * n / c.length : ℝ) : ℂ) * Complex.I))
      ≤ ∑ k ∈ Finset.range c.length, Complex.abs (c.getD k 0
          * Complex.exp (((2 * Real.pi * k * n / c.length : ℝ) : ℂ) * Complex.I)) :=
        Complex.abs.sum_le _ _
    _ = ∑ k ∈ Finset.range c.length, Complex.abs (c.getD k 0) := by
        refine Finset.sum_congr rfl ?_
        intro k hk
        rw [map_mul, Complex.abs_exp_ofReal_mul_I, mul_one]
    _ ≤ ∑ k ∈ Finset.range c.length, maxAbs c := by
        refine Finset.sum_le_sum ?_
        intro k hk
        rw [Finset.mem_range] at hk
        refine le_maxAbs c ?_
        rw [List.getD_eq_getElem c 0 hk]
        exact List.getElem_mem hk
    _ = maxAbs c * c.length := by
        rw [Finset.sum_const, Finset.card_range, nsmul_eq_mul, mul_comm]

/-- The upsampling routine never kills a nonzero spectrum: if some bin of s
is nonzero and the factor passes the assertion, some bin of the padded
spectrum is nonzero as well. -/
lemma fu_preserves_nonzero (s : List ℂ) (u : ℕ) (hu : u = 1 ∨ 2 ≤ u)
    (hnz : ∃ z ∈ s, z ≠ 0) :
    ∃ t, _freq_upsample s u = some t ∧ ∃ w ∈ t, w ≠ 0 := by
  obtain ⟨z, hzmem, hz0⟩ := hnz
  obtain ⟨k, hklt, hkval⟩ : ∃ k, k < s.length ∧ s.getD k 0 = z := by
    obtain ⟨k, hk, he⟩ := List.mem_iff_getElem.mp hzmem
    exact ⟨k, hk, by rw [List.getD_eq_getElem s 0 hk]; exact he⟩
  rcases hu with rfl | hu2
  · exact ⟨s, rfl, z, hzmem, hz0⟩
  have hu0 : ((u : ℂ)) ≠ 0 := Nat.cast_ne_zero.mpr (by omega)
  have hgz : s.getD k 0 ≠ 0 := by rw [hkval]; exact hz0
  have hl1 : 1 ≤ s.length := by omega
  have hm := mul_pred_add s.length u (by omega)
  have hL : s.length ≤ s.length * u := by
    have h1 : s.length * 1 ≤ s.length * u := Nat.mul_le_mul (le_refl s.length) (by omega)
    omega
  rw [fu_copies_agree]
  by_cases hp : s.length % 2 = 0
  · have hl2 : 2 ≤ s.length := by omega
    rw [fu_even_eq s u hu2 (by omega) hp]
    refine ⟨_, rfl, ?_⟩
    rcases lt_trichotomy k (s.length / 2) with hc | hc | hc
    · refine exists_nonzero_of_getD (i := k) ?_ ?_
      · rw [even_t_length s u hu2 hl2 hp]
        omega
      · rw [even_t_getD s u hu2 hl2 hp k, if_pos hc]
        exact mul_ne_zero hu0 hgz
    · refine exists_nonzero_of_getD (i := s.length / 2) ?_ ?_
      · rw [even_t_length s u hu2 hl2 hp]
        omega
      · rw [even_t_getD s u hu2 hl2 hp (s.length / 2), if_neg (by omega), if_pos rfl]
        refine mul_ne_zero hu0 (div_ne_zero ?_ two_ne_zero)
        rw [← hc]
        exact hgz
    · refine exists_nonzero_of_getD (i := k + s.length * (u - 1)) ?_ ?_
      · rw [even_t_length s u hu2 hl2 hp]
        generalize s.length * (u - 1) = a at hm ⊢
        generalize s.length * u = b at hm hL ⊢
        omega
      · rw [even_t_getD s u hu2 hl2 hp (k + s.length * (u - 1))]
        have d1 : ¬ (k + s.length * (u - 1) < s.length / 2) := by
          generalize s.length * (u - 1) = a at hm ⊢
          generalize s.length * u = b at hm hL ⊢
          omega
        have d2 : ¬ (k + s.length * (u - 1) = s.length / 2) := by
          generalize s.length * (u - 1) = a at hm ⊢
          generalize s.length * u = b at hm hL ⊢
          omega
        have d3 : ¬ (k + s.length * (u - 1) < s.length * u - s.length / 2) := by
          generalize s.length * (u - 1) = a at hm ⊢
          generalize s.length * u = b at hm hL ⊢
          omega
        have d4 : ¬ (k + s.length * (u - 1) = s.length * u - s.length / 2) := by
          generalize s.length * (u - 1) = a at hm ⊢
          generalize s.length * u = b at hm hL ⊢
          omega
        have d5 : k + s.length * (u - 1) < s.length * u := by
          generalize s.length * (u - 1) = a at hm ⊢
          generalize s.length * u = b at hm hL ⊢
          omega
        rw [if_neg d1, if_neg d2, if_neg d3, if_neg d4, if_pos d5,
          Nat.add_sub_cancel]
        exact mul_ne_zero hu0 hgz
  · have ho : s.length % 2 = 1 := by omega
    rw [fu_odd_eq s u hu2 ho]
    refine ⟨_, rfl, ?_⟩
    rcases le_or_lt k (s.length / 2) with hc | hc
    · refine exists_nonzero_of_getD (i := k) ?_ ?_
      · rw [odd_t_length s u hu2 hl1 ho]
        omega
      · rw [odd_t_getD s u hu2 ho k, if_pos (by omega)]
        exact mul_ne_zero hu0 hgz
    · refine exists_nonzero_of_getD (i := k + s.length * (u - 1)) ?_ ?_
      · rw [odd_t_length s u hu2 hl1 ho]
        generalize s.length * (u - 1) = a at hm ⊢
        generalize s.length * u = b at hm hL ⊢
        omega
      · rw [odd_t_getD s u hu2 ho (k + s.length * (u - 1))]
        have d1 : ¬ (k + s.length * (u - 1) < s.length / 2 + 1) := by
          generalize s.length * (u - 1) = a at hm ⊢
          generalize s.length * u = b at hm hL ⊢
          omega
        have d2 : ¬ (k + s.length * (u - 1)
            < s.length * u - (s.length - s.length / 2 - 1)) := by
          generalize s.length * (u - 1) = a at hm ⊢
          generalize s.length * u = b at hm hL ⊢
          omega
        have d3 : k + s.length * (u - 1) < s.length * u := by
          generalize s.length * (u - 1) = a at hm ⊢
          generalize s.length * u = b at hm hL ⊢
          omega
        rw [if_neg d1, if_neg d2, if_pos d3, Nat.add_sub_cancel]
        exact mul_ne_zero hu0 hgz

/-- C10: for equal-length spectra whose cross-power spectrum is not
identically zero and any factor passing the assertion, every entry of
cross_correlation lies in [-1, 1]. -/
theorem cross_correlation_bounded (x y : List ℂ) (u : ℕ) (hu : u = 1 ∨ 2 ≤ u)
    (hlen : x.length = y.length)
    (hnz : ∃ z ∈ List.zipWith (fun a b => a * conj b) x y, z ≠ 0) :
    ∃ r, cross_correlation x y u = some r ∧ ∀ v ∈ r, -1 ≤ v ∧ v ≤ 1 := by
  obtain ⟨c, hc, w, hwmem, hw0⟩ := fu_preserves_nonzero _ u hu hnz
  rw [cross_correlation, hc, Option.some_bind]
  have hcne : ¬ c.length = 0 := by
    intro h0
    rw [List.length_eq_zero] at h0
    subst h0
    exact absurd hwmem (List.not_mem_nil w)
  rw [if_neg hcne]
  refine ⟨_, rfl, ?_⟩
  intro v hv
  rw [List.mem_map] at hv
  obtain ⟨z, hzmem, rfl⟩ := hv
  have hM0 : 0 < maxAbs c := lt_of_lt_of_le (Complex.abs.pos hw0) (le_maxAbs c hwmem)
  have hzb : Complex.abs z ≤ maxAbs c := abs_ifft_le c z hzmem
  have habs : Complex.abs (z / ((maxAbs c : ℝ) : ℂ)) ≤ 1 := by
    rw [map_div₀, Complex.abs_ofReal, abs_of_pos hM0]
    exact div_le_one_of_le hzb (le_of_lt hM0)
  have hre : |(z / ((maxAbs c : ℝ) : ℂ)).re| ≤ 1 :=
    le_trans (Complex.abs_re_le_abs _) habs
  exact abs_le.mp hre

/-- Witness for C10 at x = y = [1] with factor 1. -/
theorem cross_correlation_bounded_witness :
    ∃ r, cross_correlation [(1 : ℂ)] [(1 : ℂ)] 1 = some r ∧ ∀ v ∈ r, -1 ≤ v ∧ v ≤ 1 :=
  cross_correlation_bounded [(1 : ℂ)] [(1 : ℂ)] 1 (Or.inl rfl) rfl
    ⟨1 * conj 1, List.mem_singleton.mpr rfl, by norm_num⟩

/-! ### C2: the scaled periodic Hamming window is COLA with constant 1 -/

/-- Cosines at K equally spaced angles around the circle sum to zero, for any
phase, when K is at least 2. -/
lemma sum_cos_arith (K : ℕ) (hK : 2 ≤ K) (θ : ℝ) :
    ∑ m ∈ Finset.range K, Real.cos (θ + 2 * Real.pi * m / K) = 0 := by
  have h1 : ∀ m ∈ Finset.range K, Real.cos (θ + 2 * Real.pi * m / K)
      = (Complex.exp (((θ + 2 * Real.pi * m / K : ℝ) : ℂ) * Complex.I)).re := by
    intro m hm
    rw [Complex.exp_ofReal_mul_I_re]
  rw [Finset.sum_congr rfl h1, ← Complex.re_sum]
  have h2 : ∑ m ∈ Finset.range K,
      Complex.exp (((θ + 2 * Real.pi * m / K : ℝ) : ℂ) * Complex.I) = 0 := by
    have hterm : ∀ m ∈ Finset.range K,
        Complex.exp (((θ + 2 * Real.pi * m / K : ℝ) : ℂ) * Complex.I)
          = Complex.exp (((θ : ℝ) : ℂ) * Complex.I)
            * Complex.exp (((2 * Real.pi / K : ℝ) : ℂ) * Complex.I) ^ m := by
      intro m hm
      rw [← Complex.exp_nat_mul, ← Complex.exp_add]
      congr 1
      push_cast
      ring
    rw [Finset.sum_congr rfl hterm, ← Finset.mul_sum]
    have h0 := sum_exp_range_eq_zero K 1 (le_refl 1) (by omega)
    have hterm2 : ∀ m ∈ Finset.range K,
        Complex.exp (((2 * Real.pi * m * (1 : ℕ) / K : ℝ) : ℂ) * Complex.I)
          = Complex.exp (((2 * Real.pi / K : ℝ) : ℂ) * Complex.I) ^ m := by
      intro m hm
      rw [← Complex.exp_nat_mul]
      congr 1
      push_cast
      ring
    rw [Finset.sum_congr rfl hterm2] at h0
    rw [h0, mul_zero]
  rw [h2, Complex.zero_re]

/-- Reindexing of the overlap-add sum: for a window of length W = H * K, the
shifts of the window covering sample position n are exactly K, and they read
the window at the indices (n mod H) + m * H for m < K. -/
lemma colaSum_reindex (W H K : ℕ) (n : ℤ) (hH : 0 < H) (hK2 : 2 ≤ K) (hW : W = H * K)
    (w : List ℝ) (hwlen : w.length = W) :
    colaSum w H n = ∑ m ∈ Finset.range K, w.getD ((n % (H : ℤ)).toNat + m * H) 0 := by
  have hHz : (0 : ℤ) < (H : ℤ) := by exact_mod_cast hH
  have he := Int.ediv_add_emod n H
  have h0 : 0 ≤ n % (H : ℤ) := Int.emod_nonneg n (by omega)
  have h1 : n % (H : ℤ) < H := Int.emod_lt_of_pos n hHz
  have hKW : (K : ℤ) ≤ (W : ℤ) := by
    have : K ≤ H * K := Nat.le_mul_of_pos_left K hH
    omega
  have hHW : (H : ℤ) ≤ (W : ℤ) := by
    have : H ≤ H * K := Nat.le_mul_of_pos_right H (by omega)
    omega
  have hWKH : (W : ℤ) = (K : ℤ) * (H : ℤ) := by
    have : (W : ℤ) = (H : ℤ) * (K : ℤ) := by exact_mod_cast hW
    linarith [mul_comm (K : ℤ) (H : ℤ)]
  have hHKW : (H : ℤ) + (K : ℤ) - 1 ≤ (W : ℤ) := by
    have hf : (0 : ℤ) ≤ ((H : ℤ) - 1) * ((K : ℤ) - 1) :=
      mul_nonneg (by omega) (by omega)
    nlinarith
  simp only [colaSum, hwlen]
  rw [← Finset.sum_filter]
  refine Finset.sum_nbij' (fun j => (n / (H : ℤ) - j).toNat)
    (fun m => n / (H : ℤ) - (m : ℤ)) ?_ ?_ ?_ ?_ ?_
  · intro j hj
    rw [Finset.mem_filter] at hj
    obtain ⟨hjI, hPa, hPb⟩ := hj
    show (n / (H : ℤ) - j).toNat ∈ Finset.range K
    rw [Finset.mem_range]
    have hle : j ≤ n / (H : ℤ) := by
      rw [Int.le_ediv_iff_mul_le hHz]
      linarith
    have hlt : n / (H : ℤ) < j + K := by
      rw [Int.ediv_lt_iff_lt_mul hHz]
      have hexp : (j + (K : ℤ)) * (H : ℤ) = j * H + K * H := by ring
      rw [hexp]
      linarith [hWKH]
    omega
  · intro m hm
    rw [Finset.mem_range] at hm
    have hval : n - (n / (H : ℤ) - (m : ℤ)) * (H : ℤ) = n % (H : ℤ) + m * H := by
      linear_combination -he
    have hmz : (0 : ℤ) ≤ (m : ℤ) := by positivity
    have hmK : (m : ℤ) ≤ (K : ℤ) - 1 := by omega
    have hmH : (m : ℤ) * H ≤ ((K : ℤ) - 1) * H :=
      mul_le_mul_of_nonneg_right hmK (by omega)
    have hmH0 : (0 : ℤ) ≤ (m : ℤ) * H := mul_nonneg hmz (by omega)
    have hexp : ((K : ℤ) - 1) * H = K * H - H := by ring
    refine Finset.mem_filter.mpr ⟨Finset.mem_Icc.mpr ⟨?_, ?_⟩, ?_, ?_⟩
    · show -((n.natAbs : ℤ) + (W : ℤ)) ≤ n / (H : ℤ) - (m : ℤ)
      rcases le_or_lt 0 (n / (H : ℤ)) with hq | hq
      · omega
      · have hqle : (H : ℤ) * (n / (H : ℤ)) ≤ 1 * (n / (H : ℤ)) :=
          mul_le_mul_of_nonpos_right (by omega : (1 : ℤ) ≤ (H : ℤ)) (le_of_lt hq)
        have hlow : -(n.natAbs : ℤ) - H + 1 ≤ n / (H : ℤ) := by
          have h3 : n - n % (H : ℤ) = (H : ℤ) * (n / (H : ℤ)) := by linarith [he]
          omega
        omega
    · show n / (H : ℤ) - (m : ℤ) ≤ (n.natAbs : ℤ) + (W : ℤ)
      rcases le_or_lt 0 (n / (H : ℤ)) with hq | hq
      · have hqle : n / (H : ℤ) ≤ (H : ℤ) * (n / (H : ℤ)) :=
          le_mul_of_one_le_left hq (by omega)
        have hup : n / (H : ℤ) ≤ (n.natAbs : ℤ) := by
          have h3 : (H : ℤ) * (n / (H : ℤ)) ≤ n := by linarith
          omega
        omega
      · omega
    · show 0 ≤ n - (n / (H : ℤ) - (m : ℤ)) * (H : ℤ)
      rw [hval]
      linarith
    · show n - (n / (H : ℤ) - (m : ℤ)) * (H : ℤ) < (W : ℤ)
      rw [hval]
      linarith [hWKH]
  · intro j hj
    rw [Finset.mem_filter] at hj
    obtain ⟨hjI, hPa, hPb⟩ := hj
    have hle : j ≤ n / (H : ℤ) := by
      rw [Int.le_ediv_iff_mul_le hHz]
      linarith
    show n / (H : ℤ) - ((n / (H : ℤ) - j).toNat : ℤ) = j
    omega
  · intro m hm
    rw [Finset.mem_range] at hm
    show (n / (H : ℤ) - (n / (H : ℤ) - (m : ℤ))).toNat = m
    omega
  · intro j hj
    rw [Finset.mem_filter] at hj
    obtain ⟨hjI, hPa, hPb⟩ := hj
    have hle : j ≤ n / (H : ℤ) := by
      rw [Int.le_ediv_iff_mul_le hHz]
      linarith
    show w.getD (n - j * (H : ℤ)).toNat 0
      = w.getD ((n % (H : ℤ)).toNat + (n / (H : ℤ) - j).toNat * H) 0
    congr 1
    have hq0 : (0 : ℤ) ≤ n / (H : ℤ) - j := by omega
    have hval : n - j * (H : ℤ) = n % (H : ℤ) + (n / (H : ℤ) - j) * (H : ℤ) := by
      linear_combination -he
    have hcast : (((n - j * (H : ℤ)).toNat : ℤ))
        = ((((n % (H : ℤ)).toNat + (n / (H : ℤ) - j).toNat * H : ℕ)) : ℤ) := by
      rw [Int.toNat_of_nonneg hPa]
      push_cast
      rw [Int.toNat_of_nonneg h0, Int.toNat_of_nonneg hq0]
      exact hval
    exact_mod_cast hcast

/-- C2: for hop_size dividing win_size with win_size at least twice
hop_size (and hop_size positive, as the code divides by it), the scaled
periodic Hamming window satisfies constant overlap-add with constant exactly
1: at every sample position n, the shifted copies of the window sum to 1. -/
theorem cola_hamming_cola (W H : ℕ) (n : ℤ) (hH : 0 < H) (hdvd : H ∣ W)
    (h2HW : 2 * H ≤ W) : colaSum (cola_hamming W H) H n = 1 := by
  obtain ⟨K, hK⟩ := hdvd
  have hK2 : 2 ≤ K := by
    by_contra hlt
    push_neg at hlt
    have hb : H * K ≤ H * 1 := Nat.mul_le_mul_left H (by omega)
    rw [mul_one] at hb
    omega
  have hW2 : 2 ≤ W := by omega
  have hlen : (cola_hamming W H).length = W := by simp [cola_hamming]
  rw [colaSum_reindex W H K n hH hK2 hK (cola_hamming W H) hlen]
  have h0 : 0 ≤ n % (H : ℤ) := Int.emod_nonneg n (by omega)
  have h1 : n % (H : ℤ) < H := Int.emod_lt_of_pos n (by exact_mod_cast hH)
  have hrH : (n % (H : ℤ)).toNat < H := by omega
  have hWr : (W : ℝ) = (H : ℝ) * (K : ℝ) := by exact_mod_cast hK
  have hH0 : (H : ℝ) ≠ 0 := Nat.cast_ne_zero.mpr (by omega)
  have hK0 : (K : ℝ) ≠ 0 := Nat.cast_ne_zero.mpr (by omega)
  have hterm : ∀ m ∈ Finset.range K,
      (cola_hamming W H).getD ((n % (H : ℤ)).toNat + m * H) 0
        = (0.54 - 0.46 * Real.cos (2 * Real.pi * ((n % (H : ℤ)).toNat : ℝ) / W
            + 2 * Real.pi * m / K)) / 1.08 * H / W * 2 := by
    intro m hm
    rw [Finset.mem_range] at hm
    have hidx : (n % (H : ℤ)).toNat + m * H < W := by
      have hmH : m * H ≤ (K - 1) * H := Nat.mul_le_mul_right H (by omega)
      have hKH : (K - 1) * H + H = W := by
        obtain ⟨J, rfl⟩ : ∃ J, K = J + 1 := ⟨K - 1, by omega⟩
        rw [hK]
        simp
        ring
      omega
    rw [cola_hamming, getD_range_map _ 0 hidx]
    have harg : 2 * Real.pi * (((n % (H : ℤ)).toNat + m * H : ℕ) : ℝ) / W
        = 2 * Real.pi * ((n % (H : ℤ)).toNat : ℝ) / W + 2 * Real.pi * m / K := by
      push_cast
      rw [hWr]
      field_simp
      ring
    rw [harg]
  rw [Finset.sum_congr rfl hterm]
  have hfactor : ∀ m ∈ Finset.range K,
      (0.54 - 0.46 * Real.cos (2 * Real.pi * ((n % (H : ℤ)).toNat : ℝ) / W
          + 2 * Real.pi * m / K)) / 1.08 * H / W * 2
        = 0.54 * (2 * (H : ℝ) / (1.08 * W))
          - Real.cos (2 * Real.pi * ((n % (H : ℤ)).toNat : ℝ) / W + 2 * Real.pi * m / K)
            * (0.46 * (2 * (H : ℝ) / (1.08 * W))) := by
    intro m hm
    ring
  rw [Finset.sum_congr rfl hfactor, Finset.sum_sub_distrib, Finset.sum_const,
    Finset.card_range, ← Finset.sum_mul,
    sum_cos_arith K hK2 (2 * Real.pi * ((n % (H : ℤ)).toNat : ℝ) / W), zero_mul,
    sub_zero, nsmul_eq_mul]
  rw [hWr]
  field_simp
  ring

/-- Witness for C2 at win_size 4, hop_size 2, sample position 5. -/
theorem cola_hamming_cola_witness : colaSum (cola_hamming 4 2) 2 5 = 1 :=
  cola_hamming_cola 4 2 5 (by norm_num) (by norm_num) (by norm_num)

/-- C2 counterexample at the degenerate sizes win_size = hop_size = 0, which
satisfy the claimed side conditions (0 divides 0 and 0 >= 2*0) but produce an
empty window whose overlap-add sum is 0, not 1. -/
theorem cola_hamming_degenerate_counterexample :
    (0 : ℕ) ∣ 0 ∧ 2 * 0 ≤ (0 : ℕ) ∧ ¬ colaSum (cola_hamming 0 0) 0 0 = 1 := by
  refine ⟨⟨0, rfl⟩, le_refl 0, ?_⟩
  have hz : colaSum (cola_hamming 0 0) 0 0 = 0 := by
    simp [colaSum, cola_hamming]
  rw [hz]
  norm_num

end apkit
